import Mathlib

/-!
Shallow embedding of the snapsafe snapshot engine (Rust sources under `src/`)
and verification of the specification claims against it.

Conventions of the embedding:
* Rust `u32`/`u64`/`i64` become `Nat`/`Int` with explicit range checks or
  `% 2^w` where overflow matters.
* Fallible Rust functions returning `io::Result` become `Except ErrKind _`
  (the error kind mirrors `std::io::ErrorKind`).
* `HashMap` values are represented by association lists in iteration order;
  lookups use `List.find?`, which matches `HashMap::get` whenever the key
  list is duplicate-free.  Iteration order of a `HashMap` is not fixed by
  Rust, so a map is "the same" when the association lists are permutations
  of each other.
* Filesystem effects (directory walks, hard links, copies) are modelled by
  explicit tree values and boolean outcome oracles passed as arguments.
-/

deriving instance DecidableEq for Except

namespace Snapsafe

/-- Error kinds mirroring the `std::io::ErrorKind` values the code uses. -/
inductive ErrKind where
  | notFound
  | invalidInput
  | invalidData
  | other
deriving DecidableEq, Repr

/-- `models.rs`: metadata attached to a snapshot (tags + custom key/values).
`HashMap<String,String>` is carried as an association list. -/
structure SnapshotMetadata where
  tags : List String
  custom : List (String × String)
deriving DecidableEq, Repr

/-- `models.rs`: one entry of the head manifest. -/
structure SnapshotIndex where
  version : String
  timestamp : String
  message : Option String
  metadata : Option SnapshotMetadata
deriving DecidableEq, Repr

/-- `models.rs`: per-file metadata record (`relative_path`, `file_size`, `modified`). -/
structure FileMetadata where
  relative_path : String
  file_size : Nat
  modified : String
deriving DecidableEq, Repr

/-- Value of a decimal digit list, most significant first. -/
def digitsVal (cs : List Char) : Nat :=
  cs.foldl (fun a c => a * 10 + (c.toNat - 48)) 0

/-- Rust `str::starts_with`: the pattern's characters are a prefix.  (Rust
compares bytes; on the ASCII strings involved here byte-wise and
character-wise prefix tests agree.) -/
def strStartsWith (s pat : String) : Bool :=
  pat.toList.isPrefixOf s.toList

/-- Rust `str::to_lowercase` restricted to ASCII (the only case in which the
code compares the result, against the literal `"latest"`). -/
def strToLower (s : String) : String :=
  String.mk (s.toList.map Char.toLower)

/-- Rust lexicographic string comparison `a.cmp(&b).is_le()`; byte-wise in
Rust, character-wise here, which agrees on ASCII (all timestamps the code
compares are ASCII-formatted). -/
def strLe : List Char → List Char → Bool
  | [], _ => true
  | _ :: _, [] => false
  | x :: xs, y :: ys =>
    if x = y then strLe xs ys else decide (x.toNat < y.toNat)

/-- Rust `str::split('.')`: splits at every dot, yielding at least one
(possibly empty) piece. -/
def splitDot : List Char → List (List Char)
  | [] => [[]]
  | c :: t =>
    if c = '.' then [] :: splitDot t
    else
      match splitDot t with
      | h :: r => (c :: h) :: r
      | [] => [[c]]

/-- The dot-separated components of a version string. -/
def dotParts (s : String) : List String :=
  (splitDot s.toList).map String.mk

/-- Rust `str::parse::<u32>`: an optional leading `+`, then one or more ASCII
digits, value at most `u32::MAX`; anything else is `Err`. -/
def parseU32 (s : String) : Option Nat :=
  let cs := s.toList
  let cs := match cs with
    | '+' :: t => t
    | l => l
  if cs ≠ [] ∧ cs.all (·.isDigit) ∧ digitsVal cs < 2 ^ 32 then
    some (digitsVal cs)
  else
    none

/-- Rust `str::parse::<i64>` restricted to the all-digit strings produced in
`parse_duration` (no sign handling needed there): one or more digits, value at
most `i64::MAX`. -/
def parseI64Digits (cs : List Char) : Option Int :=
  if cs ≠ [] ∧ cs.all (·.isDigit) ∧ digitsVal cs ≤ 2 ^ 63 - 1 then
    some (digitsVal cs)
  else
    none

/-- Number of occurrences of `.` in a string (Rust `s.matches('.').count()`). -/
def countDots (s : String) : Nat :=
  s.toList.count '.'

/-- Rust `s.trim_start_matches('v')`: drop every leading `v`. -/
def trimStartV (s : String) : String :=
  String.mk (s.toList.dropWhile (· = 'v'))

/-- `info.rs::get_next_version`: computes the next snapshot version string
from the head manifest and an optional user-provided version.  `u32`
increments wrap modulo `2^32` (release semantics). -/
def get_next_version (head : List SnapshotIndex) (version : Option String) : String :=
  match version with
  | some user_version =>
    if strStartsWith user_version "v" ∧ countDots user_version = 3 then
      if head.any (fun s => s.version = user_version) then
        let parts := dotParts (trimStartV user_version)
        let major := parts.getD 0 ""
        let minor := parts.getD 1 ""
        let patch := parts.getD 2 ""
        let build := (parseU32 (parts.getD 3 "")).getD 0
        let new_build := (build + 1) % 2 ^ 32
        "v" ++ major ++ "." ++ minor ++ "." ++ patch ++ "." ++ toString new_build
      else
        user_version
    else if (user_version.toList.all (·.isDigit)) then
      "v" ++ user_version ++ ".0.0.0"
    else
      let parts := dotParts (trimStartV user_version)
      match parts with
      | [a] => "v" ++ a ++ ".0.0.0"
      | [a, b] => "v" ++ a ++ "." ++ b ++ ".0.0"
      | [a, b, c] => "v" ++ a ++ "." ++ b ++ "." ++ c ++ ".0"
      | [a, b, c, d] => "v" ++ a ++ "." ++ b ++ "." ++ c ++ "." ++ d
      | _ => "v1.0.0.0"
  | none =>
    match head.getLast? with
    | none => "v1.0.0.0"
    | some last =>
      let parts := dotParts (trimStartV last.version)
      if parts.length ≠ 4 then
        "v1.0.0.0"
      else
        let major := parts.getD 0 ""
        let minor := parts.getD 1 ""
        let patch := parts.getD 2 ""
        let build := (parseU32 (parts.getD 3 "")).getD 0
        let new_build := (build + 1) % 2 ^ 32
        "v" ++ major ++ "." ++ minor ++ "." ++ patch ++ "." ++ toString new_build

/-- `info.rs::resolve_snapshot_id`: resolves an optional snapshot id against
the head manifest (latest / exact match / first prefix match). -/
def resolve_snapshot_id (snapshot_id : Option String) (head_manifest : List SnapshotIndex) :
    Except ErrKind String :=
  if head_manifest.isEmpty then
    .error .notFound
  else
    match snapshot_id with
    | none =>
      match head_manifest.getLast? with
      | some s => .ok s.version
      | none => .error .notFound
    | some id =>
      if strToLower id = "latest" then
        match head_manifest.getLast? with
        | some s => .ok s.version
        | none => .error .notFound
      else
        match head_manifest.find? (fun s => s.version = id) with
        | some s => .ok s.version
        | none =>
          match head_manifest.find? (fun s => strStartsWith s.version id) with
          | some s => .ok s.version
          | none => .error .notFound

/-- `prune.rs::parse_duration`: scans a leading run of ASCII digits with a
`for c in chars.by_ref()` loop and collects the remaining characters as the
unit.  Note the loop also consumes the first non-digit character before
breaking, so the collected unit starts at the second non-digit character.
The resulting duration is expressed in seconds (`chrono::Duration` values
`days`/`hours`/`minutes`/`seconds`). -/
def parse_duration (duration_str : String) : Except String Int :=
  let cs := duration_str.toList
  let num_str := cs.takeWhile (·.isDigit)
  let rest := cs.dropWhile (·.isDigit)
  -- the `for` loop consumed the first non-digit character; `chars.collect()`
  -- therefore yields only the characters after it
  let unit : String := String.mk (match rest with
    | [] => []
    | _ :: t => t)
  match parseI64Digits num_str with
  | none => .error ("Invalid duration: " ++ duration_str)
  | some value =>
    if unit = "d" ∨ unit = "days" ∨ unit = "day" then .ok (86400 * value)
    else if unit = "h" ∨ unit = "hours" ∨ unit = "hour" then .ok (3600 * value)
    else if unit = "m" ∨ unit = "minutes" ∨ unit = "min" then .ok (60 * value)
    else if unit = "s" ∨ unit = "seconds" ∨ unit = "sec" then .ok value
    else .error ("Unsupported duration unit: " ++ unit ++ ". Use d, h, m, or s.")

/-- The comparison `head_manifest.sort_by(|a, b| a.timestamp.cmp(&b.timestamp))`
sorts stably by timestamp; any stable sort by the same key is extensionally
identical, so the model uses insertion sort. -/
def sortByTimestamp (l : List SnapshotIndex) : List SnapshotIndex :=
  l.insertionSort (fun a b => strLe a.timestamp.toList b.timestamp.toList = true)

/-- The `older_than` selection loop of `prune.rs` (lines 52–61): pushes every
entry that is older than the cutoff and not already in `to_delete` (full
structural equality, as `Vec::contains` uses `PartialEq`). -/
def olderLoop (isOld : SnapshotIndex → Bool) : List SnapshotIndex → List SnapshotIndex →
    List SnapshotIndex
  | acc, [] => acc
  | acc, s :: rest =>
    if isOld s ∧ s ∉ acc then olderLoop isOld (acc ++ [s]) rest
    else olderLoop isOld acc rest

/-- Whether a snapshot entry is selected by the `older_than` criterion:
its timestamp parses (`chrono` parsing and local-time resolution are
abstracted as the oracle `parseTs`) and is strictly earlier than the cutoff. -/
def isOlderThan (parseTs : String → Option Int) (cutoff : Int) (s : SnapshotIndex) : Bool :=
  match parseTs s.timestamp with
  | some t => t < cutoff
  | none => false

/-- `prune.rs::prune_snapshots`, selection phase (lines 14–73): computes the
list of snapshots to delete.  `parseTs` abstracts timestamp parsing, `now`
the current local time in seconds.  Mirrors the control flow faithfully: an
empty head returns early; when `keep_last` is at least the snapshot count the
function returns early ("Keeping all … snapshots.") without evaluating the
`older_than` criterion at all; otherwise `older_than` entries are appended to
the `keep_last` selection with a duplicate check. -/
def pruneSelect (parseTs : String → Option Int) (now : Int) (keep_last : Option Nat)
    (older_than : Option String) (head : List SnapshotIndex) :
    Except ErrKind (List SnapshotIndex) :=
  if head.isEmpty then .ok [] else
  let sorted := sortByTimestamp head
  let afterOlder : List SnapshotIndex → Except ErrKind (List SnapshotIndex) := fun toDel =>
    match older_than with
    | some dstr =>
      match parse_duration dstr with
      | .error _ => .error .invalidInput
      | .ok dur =>
        let cutoff := now - dur
        .ok (olderLoop (isOlderThan parseTs cutoff) toDel sorted)
    | none => .ok toDel
  match keep_last with
  | some keep =>
    if sorted.length ≤ keep then .ok []
    else afterOlder (sorted.take (sorted.length - keep))
  | none => afterOlder []

/-- `prune.rs` lines 108–110: the head manifest persisted after deletion is
the (timestamp-sorted, since the list was sorted in place at line 24) head
with every selected entry removed (`retain` with `Vec::contains`). -/
def pruneNewHead (head toDel : List SnapshotIndex) : List SnapshotIndex :=
  (sortByTimestamp head).filter (fun s => ¬ s ∈ toDel)

/-- `verify.rs::verify_snapshots`, target-selection phase (lines 15–38): an
empty head short-circuits successfully with no targets; a given id selects the
first entry matching it exactly *or* by prefix in a single pass; no id selects
every snapshot. -/
def verifyTargets (snapshot_id : Option String) (head : List SnapshotIndex) :
    Except ErrKind (List SnapshotIndex) :=
  if head.isEmpty then .ok [] else
  match snapshot_id with
  | some id =>
    match head.find? (fun s => s.version = id ∨ strStartsWith s.version id) with
    | some s => .ok [s]
    | none => .error .notFound
  | none => .ok head

/-- `restore.rs::restore_snapshot`, version-resolution phase (lines 16–56):
the inline resolution logic (empty-head check, "latest", exact match first,
then first prefix match). -/
def restoreResolve (snapshot_id : Option String) (head : List SnapshotIndex) :
    Except ErrKind String :=
  if head.isEmpty then .error .notFound else
  match snapshot_id with
  | some id =>
    if strToLower id = "latest" then
      match head.getLast? with
      | some s => .ok s.version
      | none => .error .notFound
    else
      match head.find? (fun s => s.version = id) with
      | some s => .ok s.version
      | none =>
        match head.find? (fun s => strStartsWith s.version id) with
        | some s => .ok s.version
        | none => .error .notFound
  | none =>
    match head.getLast? with
    | some s => .ok s.version
    | none => .error .notFound

/-- `HashMap::get` on a map represented as an association list in iteration
order: first entry with the key. -/
def lookupA (l : List (String × FileMetadata)) (k : String) : Option FileMetadata :=
  (l.find? (fun pm => pm.1 = k)).map (·.2)

/-- `HashMap::contains_key` on the association-list representation. -/
def containsKey (l : List (String × FileMetadata)) (k : String) : Bool :=
  (lookupA l k).isSome

/-- `diff.rs::diff_snapshots`, first loop (lines 31–42): iterates over
`manifest2` in iteration order, pushing paths absent from `manifest1` onto
`added` and paths present with differing size or modified value onto
`updated`. -/
def diffAddedUpdated (manifest1 : List (String × FileMetadata)) :
    List (String × FileMetadata) → List String × List String
  | [] => ([], [])
  | (path, meta2) :: rest =>
    let r := diffAddedUpdated manifest1 rest
    match lookupA manifest1 path with
    | some meta1 =>
      if meta1.file_size ≠ meta2.file_size ∨ meta1.modified ≠ meta2.modified then
        (r.1, path :: r.2)
      else r
    | none => (path :: r.1, r.2)

/-- `diff.rs::diff_snapshots`, second loop (lines 43–47): every key of
`manifest1` absent from `manifest2`, in `manifest1` iteration order. -/
def diffRemoved (manifest1 manifest2 : List (String × FileMetadata)) : List String :=
  (manifest1.filter (fun pm => ¬ containsKey manifest2 pm.1)).map (·.1)

/-- `diff.rs::diff_snapshots`, classification phase (lines 24–47): the
`(added, removed, updated)` path sequences computed from the two loaded
manifests, each given in its hash-map iteration order. -/
def diff_snapshots_core (manifest1 manifest2 : List (String × FileMetadata)) :
    List String × List String × List String :=
  let au := diffAddedUpdated manifest1 manifest2
  (au.1, diffRemoved manifest1 manifest2, au.2)

/-- The membership test the first diff loop applies for `added`: the path is
absent from `manifest1`. -/
def diffAddedTest (manifest1 : List (String × FileMetadata)) (pm : String × FileMetadata) :
    Bool :=
  (lookupA manifest1 pm.1).isNone

/-- The membership test the first diff loop applies for `updated`: the path
is present in `manifest1` with differing size or modified value. -/
def diffUpdatedTest (manifest1 : List (String × FileMetadata)) (pm : String × FileMetadata) :
    Bool :=
  match lookupA manifest1 pm.1 with
  | some meta1 => meta1.file_size ≠ pm.2.file_size ∨ meta1.modified ≠ pm.2.modified
  | none => false

/-- `manifest.rs::load_head_manifest`: reads
`.snapsafe/head_manifest.json` when it exists, otherwise returns the empty
index.  The filesystem is abstracted as a partial map from paths to file
contents and `serde_json::from_str` as the oracle `parseIndices`. -/
def load_head_manifest (fsRead : String → Option String)
    (parseIndices : String → Option (List SnapshotIndex)) (base_path : String) :
    Except ErrKind (List SnapshotIndex) :=
  let head_manifest_path := base_path ++ "/.snapsafe/head_manifest.json"
  match fsRead head_manifest_path with
  | some content =>
    match parseIndices content with
    | some indices => .ok indices
    | none => .error .other
  | none => .ok []

/-- `snapshot.rs::create_snapshot`, head-index update (lines 30–31 and
64–74): the next version is computed by `get_next_version` and a fresh entry
(version, current timestamp, optional message, no metadata) is appended at the
end. -/
def createSnapshotIndexUpdate (head : List SnapshotIndex) (tag : Option String)
    (message : Option String) (timestamp : String) : List SnapshotIndex :=
  head ++ [⟨get_next_version head tag, timestamp, message, none⟩]

/-- `tag.rs::manage_tags`, add branch (lines 26–48): appends each tag not
already present, in order. -/
def addTags (tags : List String) (m : SnapshotMetadata) : SnapshotMetadata :=
  tags.foldl (fun acc tag =>
    if tag ∈ acc.tags then acc else { acc with tags := acc.tags ++ [tag] }) m

/-- `tag.rs::manage_tags`, remove branch (lines 50–72): removes the first
occurrence of each listed tag. -/
def removeTags (tags : List String) (m : SnapshotMetadata) : SnapshotMetadata :=
  tags.foldl (fun acc tag => { acc with tags := acc.tags.erase tag }) m

/-- Shared structure of `tag.rs` and `meta.rs` head mutations: the entry at
the resolved position (`&mut head_manifest[snapshot_index]`) gets its
`metadata` field (initialised to the default when absent) updated by `f`;
every other field and entry is untouched. -/
def editMetadataAt : List SnapshotIndex → Nat → (SnapshotMetadata → SnapshotMetadata) →
    List SnapshotIndex
  | [], _, _ => []
  | s :: rest, 0, f => { s with metadata := some (f (s.metadata.getD ⟨[], []⟩)) } :: rest
  | s :: rest, Nat.succ n, f => s :: editMetadataAt rest n f

/-- The head-index invariants of the spec: version uniqueness, and stored
order equal to creation order — captured as the creation timestamps being
non-decreasing along the list, which also makes the last element the most
recently created one. -/
def headInvariant (l : List SnapshotIndex) : Prop :=
  (l.map (·.version)).Nodup ∧
  (l.map (·.timestamp)).Pairwise (fun a b => strLe a.toList b.toList = true)

/-- `tag.rs`/`meta.rs` position lookup (tag.rs lines 20–23): index of the
first entry matching the resolved id exactly or by prefix. -/
def findSnapshotPos (actual_id : String) (head : List SnapshotIndex) : Option Nat :=
  head.findIdx? (fun s => s.version = actual_id ∨ strStartsWith s.version actual_id)

mutual
/-- The working tree as seen by the walk: a named tree.  `special` stands for
directory entries that are neither `is_dir()` nor `is_file()` (e.g. broken
symlinks); the walk skips them.  Children are listed in `read_dir` order. -/
inductive FsEntry where
  | file (name : String) (size : Nat) (modified : String)
  | dir (name : String) (children : FsForest)
  | special (name : String)
deriving DecidableEq, Repr
inductive FsForest where
  | nil
  | cons (e : FsEntry) (rest : FsForest)
deriving DecidableEq, Repr
end

/-- The entry's directory-entry name. -/
def FsEntry.name : FsEntry → String
  | .file n _ _ => n
  | .dir n _ => n
  | .special n => n

/-- How a regular file ended up in the snapshot directory. -/
inductive FileAction where
  | linked
  | copiedFallback
  | copiedFresh
deriving DecidableEq, Repr

/-- `path.strip_prefix(base)` for a child named `name` below the relative
directory `rel` (empty at the top level). -/
def joinRel (rel name : String) : String :=
  if rel = "" then name else rel ++ "/" ++ name

/-- `snapshot.rs` lines 152–155: the dedup-baseline test — the previous
manifest, when loaded, has a record for the same relative path with identical
size and identical modified string. -/
def baselineMatch (prev : Option (List (String × FileMetadata))) (relPath : String)
    (size : Nat) (modified : String) : Bool :=
  match prev with
  | some prevManifest =>
    match lookupA prevManifest relPath with
    | some pm => pm.file_size = size ∧ pm.modified = modified
    | none => false
  | none => false

mutual
/-- `snapshot.rs::copy_or_link_recursive_with_metadata` (lines 105–173).
`linkOk` gives the outcome of `fs::hard_link` and `copyOk` the outcome of
`fs::copy` at a relative path; a failed copy propagates as an error (`?`),
a failed hard link silently falls back to the copy.  The returned list pairs
every collected `FileMetadata` (pushed for every processed regular file, in
walk order) with how the file was materialised. -/
def walkEntry (skipDir : String) (ignore : List String)
    (prev : Option (List (String × FileMetadata))) (linkOk copyOk : String → Bool)
    (rel : String) : FsEntry → Except ErrKind (List (FileMetadata × FileAction))
  | .file name size modified =>
    if name = skipDir ∨ name ∈ ignore then .ok []
    else
      let relPath := joinRel rel name
      let fm : FileMetadata := ⟨relPath, size, modified⟩
      if baselineMatch prev relPath size modified then
        if linkOk relPath then .ok [(fm, .linked)]
        else if copyOk relPath then .ok [(fm, .copiedFallback)]
        else .error .other
      else
        if copyOk relPath then .ok [(fm, .copiedFresh)]
        else .error .other
  | .dir name children =>
    if name = skipDir ∨ name ∈ ignore then .ok []
    else walkForest skipDir ignore prev linkOk copyOk (joinRel rel name) children
  | .special _ => .ok []
def walkForest (skipDir : String) (ignore : List String)
    (prev : Option (List (String × FileMetadata))) (linkOk copyOk : String → Bool)
    (rel : String) : FsForest → Except ErrKind (List (FileMetadata × FileAction))
  | .nil => .ok []
  | .cons e rest => do
    let a ← walkEntry skipDir ignore prev linkOk copyOk rel e
    let b ← walkForest skipDir ignore prev linkOk copyOk rel rest
    .ok (a ++ b)
end

mutual
/-- The records the walk is expected to collect: one `FileMetadata` per
non-skipped regular file, in walk order, independent of any dedup decision. -/
def recordsEntry (skipDir : String) (ignore : List String) (rel : String) :
    FsEntry → List FileMetadata
  | .file name size modified =>
    if name = skipDir ∨ name ∈ ignore then []
    else [⟨joinRel rel name, size, modified⟩]
  | .dir name children =>
    if name = skipDir ∨ name ∈ ignore then []
    else recordsForest skipDir ignore (joinRel rel name) children
  | .special _ => []
def recordsForest (skipDir : String) (ignore : List String) (rel : String) :
    FsForest → List FileMetadata
  | .nil => []
  | .cons e rest =>
    recordsEntry skipDir ignore rel e ++ recordsForest skipDir ignore rel rest
end

/-- The working tree during restore: file contents plus the set of directories
known to exist (`create_dir_all` targets are appended). -/
structure WorkTree where
  files : String → Option String
  dirs : List String

/-- `restore.rs::restore_snapshot`, restore loop (lines 106–124): for every
manifest key, parent directories are created unconditionally, and the stored
file is copied over the working-tree path only when it exists and is a
regular file; otherwise the entry is silently skipped.  `srcExists` /
`srcIsFile` / `srcContent` describe the snapshot directory, `parent` is
`Path::parent`, and `copyOk` gives the outcome of `fs::copy`. -/
def restoreLoop (srcExists srcIsFile : String → Bool) (srcContent : String → String)
    (parent : String → String) (copyOk : String → Bool) :
    List String → WorkTree → Except ErrKind WorkTree
  | [], w => .ok w
  | relPath :: rest, w =>
    let w1 : WorkTree := { w with dirs := w.dirs ++ [parent relPath] }
    if srcExists relPath ∧ srcIsFile relPath then
      if copyOk relPath then
        restoreLoop srcExists srcIsFile srcContent parent copyOk rest
          { w1 with files := fun p => if p = relPath then some (srcContent relPath) else w1.files p }
      else .error .other
    else restoreLoop srcExists srcIsFile srcContent parent copyOk rest w1

/-! ## Helper lemmas -/

theorem takeWhile_append_all {p : Char → Bool} :
    ∀ (ds l : List Char), (∀ c ∈ ds, p c = true) →
      (ds ++ l).takeWhile p = ds ++ l.takeWhile p ∧
      (ds ++ l).dropWhile p = l.dropWhile p := by
  intro ds
  induction ds with
  | nil => intro l _; simp
  | cons d ds ih =>
    intro l h
    have hd : p d = true := h d (by simp)
    have ht := ih l (fun c hc => h c (by simp [hc]))
    simp [List.takeWhile_cons, List.dropWhile_cons, hd, ht.1, ht.2]

theorem lookupA_eq_none {l : List (String × FileMetadata)} {k : String} :
    lookupA l k = none ↔ k ∉ l.map Prod.fst := by
  induction l with
  | nil => simp [lookupA]
  | cons a t ih =>
    by_cases h : a.1 = k
    · simp [lookupA, List.find?_cons, h]
    · simpa [lookupA, List.find?_cons, h, Ne.symm h] using ih

theorem lookupA_cons (a1 : String) (a2 : FileMetadata) (t : List (String × FileMetadata))
    (k : String) :
    lookupA ((a1, a2) :: t) k = if a1 = k then some a2 else lookupA t k := by
  by_cases h : a1 = k <;> simp [lookupA, List.find?_cons, h]

theorem lookupA_eq_some_of_nodup {l : List (String × FileMetadata)} {k : String}
    {v : FileMetadata} (hn : (l.map Prod.fst).Nodup) :
    lookupA l k = some v ↔ (k, v) ∈ l := by
  induction l with
  | nil => simp [lookupA]
  | cons a t ih =>
    obtain ⟨a1, a2⟩ := a
    simp only [List.map_cons, List.nodup_cons] at hn
    obtain ⟨ha, ht⟩ := hn
    rw [lookupA_cons]
    by_cases h : a1 = k
    · subst h
      rw [if_pos rfl]
      constructor
      · intro h'
        obtain rfl : a2 = v := by simpa using h'
        exact List.mem_cons_self _ _
      · intro h'
        rcases List.mem_cons.mp h' with h'' | h''
        · have hv : v = a2 := by simpa using congrArg Prod.snd h''
          simp [hv]
        · exact absurd (List.mem_map_of_mem Prod.fst h'') ha
    · rw [if_neg h, ih ht]
      simp only [List.mem_cons, Prod.mk.injEq]
      constructor
      · intro h'; exact Or.inr h'
      · rintro (⟨h1, _⟩ | h')
        · exact absurd h1.symm h
        · exact h'

theorem lookupA_perm {l l' : List (String × FileMetadata)} (hp : l.Perm l')
    (hn : (l.map Prod.fst).Nodup) (k : String) : lookupA l k = lookupA l' k := by
  have hn' : (l'.map Prod.fst).Nodup := ((hp.map Prod.fst).nodup_iff).mp hn
  cases h : lookupA l k with
  | none =>
    cases h' : lookupA l' k with
    | none => rfl
    | some v =>
      have hmem : (k, v) ∈ l' := (lookupA_eq_some_of_nodup hn').mp h'
      have hk : k ∈ l.map Prod.fst :=
        List.mem_map_of_mem Prod.fst (hp.symm.subset hmem)
      exact absurd hk (lookupA_eq_none.mp h)
  | some v =>
    have hmem : (k, v) ∈ l := (lookupA_eq_some_of_nodup hn).mp h
    exact ((lookupA_eq_some_of_nodup hn').mpr (hp.subset hmem)).symm

theorem diffAddedUpdated_eq_filter (m1 : List (String × FileMetadata)) :
    ∀ l, diffAddedUpdated m1 l =
      ((l.filter (diffAddedTest m1)).map Prod.fst,
       (l.filter (diffUpdatedTest m1)).map Prod.fst) := by
  intro l
  induction l with
  | nil => simp [diffAddedUpdated]
  | cons a t ih =>
    obtain ⟨p, m2⟩ := a
    cases h : lookupA m1 p with
    | none =>
      simp [diffAddedUpdated, h, ih, List.filter_cons, diffAddedTest, diffUpdatedTest]
    | some meta1 =>
      by_cases hd : meta1.file_size ≠ m2.file_size ∨ meta1.modified ≠ m2.modified
      · simp [diffAddedUpdated, h, ih, List.filter_cons, diffAddedTest, diffUpdatedTest, hd]
      · simp [diffAddedUpdated, h, ih, List.filter_cons, diffAddedTest, diffUpdatedTest, hd]

theorem editMetadataAt_map {α : Type} (g : SnapshotIndex → α)
    (hg : ∀ s m, g { s with metadata := m } = g s) :
    ∀ (head : List SnapshotIndex) (idx : Nat) (f : SnapshotMetadata → SnapshotMetadata),
      (editMetadataAt head idx f).map g = head.map g := by
  intro head
  induction head with
  | nil => intro idx f; rfl
  | cons s rest ih =>
    intro idx f
    cases idx with
    | zero => simp [editMetadataAt, hg]
    | succ n => simp [editMetadataAt, ih]

theorem mem_olderLoop (isOld : SnapshotIndex → Bool) :
    ∀ (l acc : List SnapshotIndex) (e : SnapshotIndex),
      e ∈ olderLoop isOld acc l ↔ e ∈ acc ∨ (e ∈ l ∧ isOld e = true) := by
  intro l
  induction l with
  | nil => intro acc e; simp [olderLoop]
  | cons s rest ih =>
    intro acc e
    by_cases hc : isOld s = true ∧ s ∉ acc
    · rw [olderLoop, if_pos hc, ih]
      constructor
      · rintro (hacc | hrest)
        · rcases List.mem_append.mp hacc with h | h
          · exact Or.inl h
          · simp only [List.mem_singleton] at h
            subst h
            exact Or.inr ⟨by simp, hc.1⟩
        · exact Or.inr ⟨by simp [hrest.1], hrest.2⟩
      · rintro (hacc | ⟨hmem, hold⟩)
        · exact Or.inl (List.mem_append.mpr (Or.inl hacc))
        · rcases List.mem_cons.mp hmem with rfl | h
          · exact Or.inl (List.mem_append.mpr (Or.inr (by simp)))
          · exact Or.inr ⟨h, hold⟩
    · rw [olderLoop, if_neg hc, ih]
      push_neg at hc
      constructor
      · rintro (hacc | ⟨hm, ho⟩)
        · exact Or.inl hacc
        · exact Or.inr ⟨by simp [hm], ho⟩
      · rintro (hacc | ⟨hmem, hold⟩)
        · exact Or.inl hacc
        · rcases List.mem_cons.mp hmem with rfl | h
          · exact Or.inl (hc hold)
          · exact Or.inr ⟨h, hold⟩

/-! ## Theorems -/

/-- C9: loading the head index when the head-index file does not exist on
disk returns the empty index successfully rather than any error. -/
theorem load_head_absent_ok (fsRead : String → Option String)
    (parseIndices : String → Option (List SnapshotIndex)) (base_path : String)
    (h : fsRead (base_path ++ "/.snapsafe/head_manifest.json") = none) :
    load_head_manifest fsRead parseIndices base_path = .ok [] := by
  simp [load_head_manifest, h]

/-- Witness for `load_head_absent_ok` on an empty filesystem. -/
theorem load_head_absent_ok_witness :
    load_head_manifest (fun _ => none) (fun _ => none) "" = .ok [] :=
  load_head_absent_ok (fun _ => none) (fun _ => none) "" rfl

/-- C7: for every non-empty head index, `resolve_snapshot_id` with an absent
identifier and with any case-insensitive spelling of "latest" returns the
last entry's version; it fails with NotFound on an empty head index and when
neither an exact nor a prefix match exists. -/
theorem resolve_latest_and_notfound (head : List SnapshotIndex) :
    (∀ last, head.getLast? = some last →
      resolve_snapshot_id none head = .ok last.version ∧
      ∀ id, strToLower id = "latest" →
        resolve_snapshot_id (some id) head = .ok last.version) ∧
    (∀ i, resolve_snapshot_id i ([] : List SnapshotIndex) = .error .notFound) ∧
    (∀ id, strToLower id ≠ "latest" →
      head.find? (fun s => s.version = id) = none →
      head.find? (fun s => strStartsWith s.version id) = none →
      resolve_snapshot_id (some id) head = .error .notFound) := by
  refine ⟨?_, ?_, ?_⟩
  · intro last hlast
    have hne : head.isEmpty = false := by
      cases head with
      | nil => simp at hlast
      | cons a t => rfl
    constructor
    · simp [resolve_snapshot_id, hne, hlast]
    · intro id hid
      simp [resolve_snapshot_id, hne, hid, hlast]
  · intro i
    cases i <;> simp [resolve_snapshot_id]
  · intro id hid hexact hpre
    cases head with
    | nil => simp [resolve_snapshot_id]
    | cons a t => simp [resolve_snapshot_id, hid, hexact, hpre]

/-- Witness for `resolve_latest_and_notfound` on concrete head indexes. -/
theorem resolve_latest_and_notfound_witness :
    resolve_snapshot_id none
      [⟨"v1.0.0.0", "t1", none, none⟩, ⟨"v1.0.0.1", "t2", none, none⟩] = .ok "v1.0.0.1" ∧
    resolve_snapshot_id (some "LATEST")
      [⟨"v1.0.0.0", "t1", none, none⟩, ⟨"v1.0.0.1", "t2", none, none⟩] = .ok "v1.0.0.1" ∧
    resolve_snapshot_id (some "zzz")
      [⟨"v1.0.0.0", "t1", none, none⟩] = .error .notFound := by
  have h := resolve_latest_and_notfound
    [⟨"v1.0.0.0", "t1", none, none⟩, ⟨"v1.0.0.1", "t2", none, none⟩]
  have h1 := h.1 ⟨"v1.0.0.1", "t2", none, none⟩ (by decide)
  refine ⟨h1.1, h1.2 "LATEST" (by decide), ?_⟩
  exact (resolve_latest_and_notfound [⟨"v1.0.0.0", "t1", none, none⟩]).2.2 "zzz"
    (by decide) (by decide) (by decide)

/-- C3 counterexample: the explicit version "abc" is malformed (its only
component is non-numeric), yet `get_next_version` embeds it verbatim instead
of returning the fallback `v1.0.0.0`. -/
theorem next_version_nonnumeric_counterexample :
    get_next_version [] (some "abc") = "vabc.0.0.0" ∧
    "vabc.0.0.0" ≠ "v1.0.0.0" := by
  exact ⟨by decide, by decide⟩

/-- C3 (amended): the `v1.0.0.0` fallback for an explicit version string is
triggered exactly by excessive arity: when the string is neither a
`v`-prefixed three-dot form nor all digits, and splitting (after trimming
leading `v`s) yields more than four dot-separated components.  Non-numeric
components alone never trigger the fallback. -/
theorem next_version_fallback_arity (head : List SnapshotIndex) (s : String)
    (h1 : ¬ (strStartsWith s "v" ∧ countDots s = 3))
    (h2 : ¬ (s.toList.all (·.isDigit) = true))
    (h3 : 4 < (dotParts (trimStartV s)).length) :
    get_next_version head (some s) = "v1.0.0.0" := by
  simp only [get_next_version]
  rw [if_neg h1, if_neg h2]
  rcases hp : dotParts (trimStartV s) with _ | ⟨a, _ | ⟨b, _ | ⟨c, _ | ⟨d, _ | ⟨e, t⟩⟩⟩⟩⟩ <;>
    simp_all

/-- Witness for `next_version_fallback_arity` at the five-component string
"1.2.3.4.5". -/
theorem next_version_fallback_arity_witness :
    get_next_version [] (some "1.2.3.4.5") = "v1.0.0.0" :=
  next_version_fallback_arity [] "1.2.3.4.5" (by decide) (by decide) (by decide)

/-- C2: the claim matches `parse_duration`'s documentation, but the code
contradicts it: the digit-scanning `for` loop consumes the first character of
the unit, so every well-formed `<integer><unit>` duration string (unit one of
d/day/days/h/hour/hours/m/min/minutes/s/sec/seconds) is rejected — the unit
lookup sees the unit minus its first character — and prune consequently fails
with InvalidInput instead of computing the cutoff. -/
theorem parse_duration_wellformed_fails (s : String) (ds : List Char) (u : String)
    (hs : s.toList = ds ++ u.toList) (hne : ds ≠ [])
    (hdig : ∀ c ∈ ds, c.isDigit = true)
    (hu : u ∈ ["d", "day", "days", "h", "hour", "hours", "m", "min", "minutes",
               "s", "sec", "seconds"]) :
    (∃ e, parse_duration s = .error e) ∧
    (∀ parseTs now (head : List SnapshotIndex), head ≠ [] →
      pruneSelect parseTs now none (some s) head = .error .invalidInput) := by
  have herr : ∃ e, parse_duration s = .error e := by
    have htw := fun l => takeWhile_append_all (p := (·.isDigit)) ds l hdig
    simp only [List.mem_cons, List.not_mem_nil, or_false] at hu
    rcases hu with rfl | rfl | rfl | rfl | rfl | rfl | rfl | rfl | rfl | rfl | rfl | rfl <;>
    · simp only [parse_duration, hs, (htw _).1, (htw _).2]
      cases hp : parseI64Digits (ds ++ List.takeWhile (fun c => c.isDigit) (String.toList _)) <;>
        simp
  refine ⟨herr, ?_⟩
  intro parseTs now head hhead
  obtain ⟨e, he⟩ := herr
  have hne' : head.isEmpty = false := by
    cases head with
    | nil => exact absurd rfl hhead
    | cons a t => rfl
  simp [pruneSelect, hne', he]

/-- Witness for `parse_duration_wellformed_fails` at the documented example
input "7d". -/
theorem parse_duration_wellformed_fails_witness :
    parse_duration "7d" = .error "Unsupported duration unit: . Use d, h, m, or s." ∧
    pruneSelect (fun _ => some 0) 0 none (some "7d")
      [⟨"v1", "t", none, none⟩] = .error .invalidInput := by
  have h := parse_duration_wellformed_fails "7d" ['7'] "d"
    (by decide) (by decide) (by decide) (by decide)
  exact ⟨by decide, h.2 (fun _ => some 0) 0 _ (by simp)⟩

/-- C5 counterexample: with head entries `v1.0.0.10` (first) and `v1.0.0.1`
(second) and identifier `v1.0.0.1`, `resolve_snapshot_id` and the restore
resolution return the exact match `v1.0.0.1`, but verify's single-pass
exact-or-prefix scan returns the earlier prefix match `v1.0.0.10`: the three
operations do not all let the exact match win. -/
theorem verify_exact_shadowed_counterexample :
    resolve_snapshot_id (some "v1.0.0.1")
      [⟨"v1.0.0.10", "t1", none, none⟩, ⟨"v1.0.0.1", "t2", none, none⟩] = .ok "v1.0.0.1" ∧
    restoreResolve (some "v1.0.0.1")
      [⟨"v1.0.0.10", "t1", none, none⟩, ⟨"v1.0.0.1", "t2", none, none⟩] = .ok "v1.0.0.1" ∧
    verifyTargets (some "v1.0.0.1")
      [⟨"v1.0.0.10", "t1", none, none⟩, ⟨"v1.0.0.1", "t2", none, none⟩] =
        .ok [⟨"v1.0.0.10", "t1", none, none⟩] ∧
    "v1.0.0.10" ≠ "v1.0.0.1" := by
  refine ⟨by decide, by decide, by decide, by decide⟩

/-- C5 (amended): `resolve_snapshot_id` and restore's inline resolution
return the exactly-matching version when one exists (exact beats prefix) and
otherwise the first entry in stored order whose version starts with the
identifier; verify instead selects the first entry in stored order matching
exactly *or* by prefix in one pass, so an earlier prefix match can shadow a
later exact match. -/
theorem resolve_exact_over_prefix_amended (head : List SnapshotIndex) (id : String)
    (hid : strToLower id ≠ "latest") :
    ((∃ e ∈ head, e.version = id) →
      resolve_snapshot_id (some id) head = .ok id ∧
      restoreResolve (some id) head = .ok id) ∧
    (head.find? (fun s => s.version = id) = none →
      ∀ p, head.find? (fun s => strStartsWith s.version id) = some p →
        resolve_snapshot_id (some id) head = .ok p.version ∧
        restoreResolve (some id) head = .ok p.version) ∧
    (∀ e, head.find? (fun s => decide (s.version = id) || strStartsWith s.version id) = some e →
      verifyTargets (some id) head = .ok [e]) := by
  refine ⟨?_, ?_, ?_⟩
  · intro hex
    obtain ⟨e, hmem, hv⟩ := hex
    have hne : head.isEmpty = false := by
      cases head with
      | nil => simp at hmem
      | cons a t => rfl
    have hfind : ∃ e', head.find? (fun s => s.version = id) = some e' := by
      cases hf : head.find? (fun s => s.version = id) with
      | some e' => exact ⟨e', rfl⟩
      | none =>
        rw [List.find?_eq_none] at hf
        exact absurd (by simpa using hf e hmem) (by simp [hv])
    obtain ⟨e', hf⟩ := hfind
    have hv' : e'.version = id := by
      have := List.find?_some hf
      simpa using this
    constructor
    · simp [resolve_snapshot_id, hne, hid, hf, hv']
    · simp [restoreResolve, hne, hid, hf, hv']
  · intro hnone p hp
    have hne : head.isEmpty = false := by
      cases head with
      | nil => simp at hp
      | cons a t => rfl
    constructor
    · simp [resolve_snapshot_id, hne, hid, hnone, hp]
    · simp [restoreResolve, hne, hid, hnone, hp]
  · intro e he
    have hne : head.isEmpty = false := by
      cases head with
      | nil => simp at he
      | cons a t => rfl
    simp [verifyTargets, hne, he]

/-- Witness for `resolve_exact_over_prefix_amended` at a concrete head. -/
theorem resolve_exact_over_prefix_amended_witness :
    resolve_snapshot_id (some "v2")
      [⟨"v1", "t1", none, none⟩, ⟨"v2", "t2", none, none⟩] = .ok "v2" ∧
    verifyTargets (some "v2")
      [⟨"v1", "t1", none, none⟩, ⟨"v2", "t2", none, none⟩] =
        .ok [⟨"v2", "t2", none, none⟩] := by
  have h := resolve_exact_over_prefix_amended
    [⟨"v1", "t1", none, none⟩, ⟨"v2", "t2", none, none⟩] "v2" (by decide)
  exact ⟨(h.1 ⟨⟨"v2", "t2", none, none⟩, by simp, rfl⟩).1,
    h.2.2 ⟨"v2", "t2", none, none⟩ (by decide)⟩

/-- C8 counterexample: the diff loops iterate over `HashMap`s, whose
iteration order Rust does not fix across runs.  The two association lists
below represent the same manifest mapping (they are permutations of one
another with duplicate-free keys), yet diff produces different output
sequences, so two runs of diff on the same two manifests need not produce
identical output sequences. -/
theorem diff_order_counterexample :
    ([("b", (⟨"b", 1, "m"⟩ : FileMetadata)), ("a", ⟨"a", 1, "m"⟩)]).Perm
      [("a", (⟨"a", 1, "m"⟩ : FileMetadata)), ("b", ⟨"b", 1, "m"⟩)] ∧
    (([("a", (⟨"a", 1, "m"⟩ : FileMetadata)), ("b", ⟨"b", 1, "m"⟩)]).map Prod.fst).Nodup ∧
    diff_snapshots_core [] [("a", ⟨"a", 1, "m"⟩), ("b", ⟨"b", 1, "m"⟩)] ≠
      diff_snapshots_core [] [("b", ⟨"b", 1, "m"⟩), ("a", ⟨"a", 1, "m"⟩)] :=
  ⟨List.Perm.swap _ _ _, by decide, by decide⟩

/-- C8 (amended): diff is a pure function of the two manifests *as
enumerated*, and across different hash-map enumeration orders of the same
two manifest mappings the added, removed, and updated outputs agree as
multisets (they are permutations of each other); the sequence order itself
follows the iteration order and is not canonically sorted. -/
theorem diff_deterministic_amended (m1 m2 m1' m2' : List (String × FileMetadata))
    (h1 : m1.Perm m1') (h2 : m2.Perm m2')
    (n1 : (m1.map Prod.fst).Nodup) (n2 : (m2.map Prod.fst).Nodup) :
    (diff_snapshots_core m1 m2).1.Perm (diff_snapshots_core m1' m2').1 ∧
    (diff_snapshots_core m1 m2).2.1.Perm (diff_snapshots_core m1' m2').2.1 ∧
    (diff_snapshots_core m1 m2).2.2.Perm (diff_snapshots_core m1' m2').2.2 := by
  have hl1 : ∀ k, lookupA m1 k = lookupA m1' k := lookupA_perm h1 n1
  have hl2 : ∀ k, lookupA m2 k = lookupA m2' k := lookupA_perm h2 n2
  have haddf : diffAddedTest m1 = diffAddedTest m1' := by
    funext pm; simp [diffAddedTest, hl1]
  have hupdf : diffUpdatedTest m1 = diffUpdatedTest m1' := by
    funext pm; simp [diffUpdatedTest, hl1]
  have hremf : (fun pm : String × FileMetadata => decide (¬ containsKey m2 pm.1 = true)) =
      (fun pm : String × FileMetadata => decide (¬ containsKey m2' pm.1 = true)) := by
    funext pm; simp [containsKey, hl2]
  refine ⟨?_, ?_, ?_⟩
  · simp only [diff_snapshots_core, diffAddedUpdated_eq_filter]
    rw [haddf]
    exact (h2.filter _).map _
  · simp only [diff_snapshots_core, diffRemoved]
    rw [hremf]
    exact (h1.filter _).map _
  · simp only [diff_snapshots_core, diffAddedUpdated_eq_filter]
    rw [hupdf]
    exact (h2.filter _).map _

/-- Witness for `diff_deterministic_amended` on concrete manifests. -/
theorem diff_deterministic_amended_witness :
    (diff_snapshots_core [] [("a", ⟨"a", 1, "m"⟩), ("b", ⟨"b", 1, "m"⟩)]).1.Perm
      (diff_snapshots_core [] [("b", ⟨"b", 1, "m"⟩), ("a", ⟨"a", 1, "m"⟩)]).1 :=
  (diff_deterministic_amended [] [("a", ⟨"a", 1, "m"⟩), ("b", ⟨"b", 1, "m"⟩)]
    [] [("b", ⟨"b", 1, "m"⟩), ("a", ⟨"a", 1, "m"⟩)]
    (List.Perm.refl _) (List.Perm.swap _ _ _).symm (by decide) (by decide)).1

/-- C6 counterexample: snapshot creation does not always preserve version
uniqueness.  With head `[v1.0.0.1]` and explicit version `1.0.0.1`,
`get_next_version` zero-fills the four components verbatim without checking
for an existing entry, and the append duplicates `v1.0.0.1`. -/
theorem head_uniqueness_counterexample :
    headInvariant [⟨"v1.0.0.1", "2024-01-01 00:00:00", none, none⟩] ∧
    ¬ (((createSnapshotIndexUpdate [⟨"v1.0.0.1", "2024-01-01 00:00:00", none, none⟩]
        (some "1.0.0.1") none "2024-01-02 00:00:00").map (·.version)).Nodup) := by
  refine ⟨⟨by decide, by decide⟩, by decide⟩

/-- C6 (amended): prune removal and tag/metadata edits preserve the head
invariants (prune for a head already in creation order, which its stable
timestamp sort then leaves unchanged; edits touch only the `metadata` field);
snapshot append preserves them provided the appended timestamp is not earlier
than the existing ones and the computed next version is not already present —
the latter can fail, as the counterexample shows. -/
theorem head_invariants_amended :
    (∀ (head : List SnapshotIndex) (tag msg : Option String) (ts : String),
      headInvariant head →
      (∀ e ∈ head, strLe e.timestamp.toList ts.toList = true) →
      get_next_version head tag ∉ head.map (·.version) →
      headInvariant (createSnapshotIndexUpdate head tag msg ts) ∧
      (createSnapshotIndexUpdate head tag msg ts).getLast? =
        some ⟨get_next_version head tag, ts, msg, none⟩) ∧
    (∀ (head toDel : List SnapshotIndex), headInvariant head →
      headInvariant (pruneNewHead head toDel) ∧
      (pruneNewHead head toDel).Sublist head) ∧
    (∀ (head : List SnapshotIndex) (idx : Nat) (f : SnapshotMetadata → SnapshotMetadata),
      headInvariant head →
      headInvariant (editMetadataAt head idx f) ∧
      (editMetadataAt head idx f).map (fun s => (s.version, s.timestamp, s.message)) =
        head.map (fun s => (s.version, s.timestamp, s.message))) := by
  refine ⟨?_, ?_, ?_⟩
  · intro head tag msg ts hinv hts hv
    refine ⟨⟨?_, ?_⟩, ?_⟩
    · have hforall : ∀ x ∈ head, ¬ x.version = get_next_version head tag := by
        intro x hx hcon
        exact hv (hcon ▸ List.mem_map_of_mem (·.version) hx)
      simpa [createSnapshotIndexUpdate, List.nodup_append] using ⟨hinv.1, hforall⟩
    · simp only [createSnapshotIndexUpdate, List.map_append, List.map_cons, List.map_nil,
        List.pairwise_append]
      refine ⟨hinv.2, by simp, ?_⟩
      intro a ha b hb
      simp only [List.mem_map] at ha
      simp only [List.mem_cons, List.not_mem_nil, or_false] at hb
      obtain ⟨e, he, rfl⟩ := ha
      subst hb
      exact hts e he
    · simp [createSnapshotIndexUpdate]
  · intro head toDel hinv
    have hsorted :
        List.Sorted (fun a b : SnapshotIndex =>
          strLe a.timestamp.toList b.timestamp.toList = true) head := by
      have h2 := hinv.2
      rwa [List.pairwise_map] at h2
    have hs : sortByTimestamp head = head := hsorted.insertionSort_eq
    have hsub : (pruneNewHead head toDel).Sublist head := by
      rw [pruneNewHead, hs]
      exact List.filter_sublist head
    refine ⟨⟨?_, ?_⟩, hsub⟩
    · exact List.Nodup.sublist (hsub.map (·.version)) hinv.1
    · exact List.Pairwise.sublist (hsub.map (·.timestamp)) hinv.2
  · intro head idx f hinv
    have hmap := editMetadataAt_map (fun s => (s.version, s.timestamp, s.message))
      (fun s m => rfl) head idx f
    have hver : (editMetadataAt head idx f).map (·.version) = head.map (·.version) :=
      editMetadataAt_map (fun s => s.version) (fun s m => rfl) head idx f
    have hts : (editMetadataAt head idx f).map (·.timestamp) = head.map (·.timestamp) :=
      editMetadataAt_map (fun s => s.timestamp) (fun s m => rfl) head idx f
    exact ⟨⟨by rw [hver]; exact hinv.1, by rw [hts]; exact hinv.2⟩, hmap⟩

/-- Witness for `head_invariants_amended` on a concrete two-entry head. -/
theorem head_invariants_amended_witness :
    headInvariant (createSnapshotIndexUpdate
      [⟨"v1.0.0.0", "2024-01-01 00:00:00", none, none⟩] none none
      "2024-01-02 00:00:00") := by
  have h := (head_invariants_amended.1
    [⟨"v1.0.0.0", "2024-01-01 00:00:00", none, none⟩] none none
    "2024-01-02 00:00:00" ⟨by decide, by decide⟩ (by decide) (by decide)).1
  exact h

/-- C4 counterexample: when `keep_last` is at least the snapshot count,
`prune_snapshots` returns early ("Keeping all … snapshots.") without ever
evaluating the `older_than` criterion.  Here the single snapshot satisfies
the active `older_than` criterion (its timestamp parses and is older than
the cutoff for the parseable duration string "7dd"), so the claimed union
would select it, yet the selection is empty. -/
theorem prune_union_counterexample :
    parse_duration "7dd" = .ok 604800 ∧
    isOlderThan (fun _ => some 0) (1000000000 - 604800) ⟨"v1", "t0", none, none⟩ = true ∧
    pruneSelect (fun _ => some 0) 1000000000 (some 1) (some "7dd")
      [⟨"v1", "t0", none, none⟩] = .ok [] := by
  refine ⟨by decide, by decide, by decide⟩

/-- C4 (amended): for a head index in creation order, `keep_last = N` alone
selects all but the `N` most recent entries in stored order and selects none
when `N` is at least the count; when both criteria are supplied and
`N` is below the count, the selection is the union of the two criteria; but
when `N` is at least the count, prune returns early with an empty selection
and the `older_than` criterion is ignored entirely. -/
theorem prune_selection_amended (parseTs : String → Option Int) (now : Int)
    (head : List SnapshotIndex)
    (hsorted : (head.map (·.timestamp)).Pairwise (fun a b => strLe a.toList b.toList = true)) :
    (∀ keep, pruneSelect parseTs now (some keep) none head =
      .ok (if head.length ≤ keep then [] else head.take (head.length - keep))) ∧
    (∀ keep dstr, head.length ≤ keep →
      pruneSelect parseTs now (some keep) (some dstr) head = .ok []) ∧
    (∀ keep dstr dur, parse_duration dstr = .ok dur → keep < head.length →
      ∃ res, pruneSelect parseTs now (some keep) (some dstr) head = .ok res ∧
        ∀ e, e ∈ res ↔ (e ∈ head.take (head.length - keep) ∨
          (e ∈ head ∧ isOlderThan parseTs (now - dur) e = true))) := by
  have hs : sortByTimestamp head = head := by
    have hsorted' :
        List.Sorted (fun a b : SnapshotIndex =>
          strLe a.timestamp.toList b.timestamp.toList = true) head := by
      rwa [List.pairwise_map] at hsorted
    exact hsorted'.insertionSort_eq
  refine ⟨?_, ?_, ?_⟩
  · intro keep
    cases head with
    | nil => simp [pruneSelect]
    | cons a t =>
      simp [pruneSelect, hs]
      split <;> simp_all
  · intro keep dstr hk
    cases head with
    | nil => simp [pruneSelect]
    | cons a t =>
      simp only [List.length_cons] at hk
      simp [pruneSelect, hs, hk]
  · intro keep dstr dur hdur hk
    cases head with
    | nil => simp at hk
    | cons a t =>
      simp only [List.length_cons] at hk
      have hk' : ¬ (t.length + 1 ≤ keep) := by omega
      refine ⟨olderLoop (isOlderThan parseTs (now - dur))
        ((a :: t).take ((a :: t).length - keep)) (a :: t), ?_, ?_⟩
      · simp [pruneSelect, hs, hk', hdur]
      · intro e
        exact mem_olderLoop _ _ _ _

/-- Witness for `prune_selection_amended` on a concrete two-entry head. -/
theorem prune_selection_amended_witness :
    pruneSelect (fun _ => some 0) 1000000000 (some 1) none
      [⟨"v1", "t1", none, none⟩, ⟨"v2", "t2", none, none⟩] =
      .ok [⟨"v1", "t1", none, none⟩] := by
  have h := (prune_selection_amended (fun _ => some 0) 1000000000
    [⟨"v1", "t1", none, none⟩, ⟨"v2", "t2", none, none⟩] (by decide)).1 1
  simpa using h

/-- C10: restore silently skips every manifest entry whose stored file is
absent from the snapshot directory or is not a regular file — the
working-tree path is left unchanged, the entry's parent directory is still
created, no error is raised (a copy failure can only come from entries that
are actually copied), and the loop completes successfully. -/
theorem restore_skips_missing_sources
    (srcExists srcIsFile : String → Bool) (srcContent : String → String)
    (parent : String → String) (copyOk : String → Bool) :
    ∀ (keys : List String) (w : WorkTree),
      (∀ r ∈ keys, srcExists r = true → srcIsFile r = true → copyOk r = true) →
      ∃ w', restoreLoop srcExists srcIsFile srcContent parent copyOk keys w = .ok w' ∧
        (∀ p, w'.files p =
          if p ∈ keys ∧ srcExists p = true ∧ srcIsFile p = true
          then some (srcContent p) else w.files p) ∧
        w'.dirs = w.dirs ++ keys.map parent := by
  intro keys
  induction keys with
  | nil =>
    intro w _
    exact ⟨w, rfl, by simp, by simp⟩
  | cons r rest ih =>
    intro w h
    by_cases hsrc : srcExists r = true ∧ srcIsFile r = true
    · have hcopy : copyOk r = true := h r (by simp) hsrc.1 hsrc.2
      obtain ⟨w', hw', hfiles, hdirs⟩ :=
        ih ⟨fun p => if p = r then some (srcContent r) else w.files p,
            w.dirs ++ [parent r]⟩
          (fun x hx => h x (by simp [hx]))
      refine ⟨w', ?_, ?_, ?_⟩
      · rw [restoreLoop, if_pos hsrc, if_pos hcopy]
        exact hw'
      · intro p
        rw [hfiles p]
        by_cases hp : p = r
        · subst hp
          by_cases hrest : p ∈ rest
          · simp [hrest, hsrc]
          · simp [hrest, hsrc]
        · simp only [List.mem_cons]
          by_cases hrest : p ∈ rest
          · simp [hrest, hp]
          · simp [hrest, hp]
      · rw [hdirs]
        simp
    · obtain ⟨w', hw', hfiles, hdirs⟩ :=
        ih ⟨w.files, w.dirs ++ [parent r]⟩ (fun x hx => h x (by simp [hx]))
      refine ⟨w', ?_, ?_, ?_⟩
      · rw [restoreLoop, if_neg hsrc]
        exact hw'
      · intro p
        rw [hfiles p]
        by_cases hp : p = r
        · subst hp
          rw [if_neg (fun hcon => hsrc ⟨hcon.2.1, hcon.2.2⟩),
            if_neg (fun hcon => hsrc ⟨hcon.2.1, hcon.2.2⟩)]
        · simp only [List.mem_cons]
          by_cases hrest : p ∈ rest
          · simp [hrest, hp]
          · simp [hrest, hp]
      · rw [hdirs]
        simp

/-- Witness for `restore_skips_missing_sources`: a two-entry manifest where
only "ok" exists in the snapshot directory; "missing" is skipped but its
parent directory is still created, and the loop succeeds. -/
theorem restore_skips_missing_sources_witness :
    Except.map (fun w' : WorkTree => (w'.files "missing", w'.files "ok", w'.dirs))
      (restoreLoop (fun r => r = "ok") (fun r => r = "ok") (fun _ => "data")
        (fun _ => "d") (fun _ => true) ["ok", "missing"] ⟨fun _ => none, []⟩) =
    .ok (none, some "data", ["d", "d"]) := by
  obtain ⟨w', hw', hfiles, hdirs⟩ := restore_skips_missing_sources
    (fun r => r = "ok") (fun r => r = "ok") (fun _ => "data")
    (fun _ => "d") (fun _ => true) ["ok", "missing"] ⟨fun _ => none, []⟩
    (fun _ _ _ _ => rfl)
  rw [hw']
  simp only [Except.map, hfiles, hdirs]
  norm_num
  exact fun h => absurd h (by decide)

/-- The per-file dedup property the walk guarantees for each collected
record/action pair. -/
def walkActionSpec (prev : Option (List (String × FileMetadata))) (linkOk : String → Bool)
    (fa : FileMetadata × FileAction) : Prop :=
  ((fa.2 = FileAction.linked ∨ fa.2 = FileAction.copiedFallback) ↔
    baselineMatch prev fa.1.relative_path fa.1.file_size fa.1.modified = true) ∧
  (fa.2 = FileAction.linked ↔
    (baselineMatch prev fa.1.relative_path fa.1.file_size fa.1.modified = true ∧
     linkOk fa.1.relative_path = true))

mutual
theorem walkEntry_spec (skipDir : String) (ignore : List String)
    (prev : Option (List (String × FileMetadata))) (linkOk : String → Bool)
    (e : FsEntry) : ∀ (rel : String),
    ∃ out, walkEntry skipDir ignore prev linkOk (fun _ => true) rel e = .ok out ∧
      out.map Prod.fst = recordsEntry skipDir ignore rel e ∧
      ∀ fa ∈ out, walkActionSpec prev linkOk fa := by
  cases e with
  | file name size modified =>
    intro rel
    by_cases hskip : name = skipDir ∨ name ∈ ignore
    · exact ⟨[], by simp [walkEntry, hskip], by simp [recordsEntry, hskip], by simp⟩
    · by_cases hb : baselineMatch prev (joinRel rel name) size modified = true
      · by_cases hl : linkOk (joinRel rel name) = true
        · refine ⟨[(⟨joinRel rel name, size, modified⟩, .linked)],
            by simp [walkEntry, hskip, hb, hl], by simp [recordsEntry, hskip], ?_⟩
          intro fa hfa
          simp only [List.mem_singleton] at hfa
          subst hfa
          exact ⟨by simp [hb], by simp [hb, hl]⟩
        · refine ⟨[(⟨joinRel rel name, size, modified⟩, .copiedFallback)],
            by simp [walkEntry, hskip, hb, hl], by simp [recordsEntry, hskip], ?_⟩
          intro fa hfa
          simp only [List.mem_singleton] at hfa
          subst hfa
          exact ⟨by simp [hb], by simp [hl]⟩
      · refine ⟨[(⟨joinRel rel name, size, modified⟩, .copiedFresh)],
          by simp [walkEntry, hskip, hb], by simp [recordsEntry, hskip], ?_⟩
        intro fa hfa
        simp only [List.mem_singleton] at hfa
        subst hfa
        exact ⟨by simp [hb], by simp [hb]⟩
  | dir name children =>
    intro rel
    by_cases hskip : name = skipDir ∨ name ∈ ignore
    · exact ⟨[], by simp [walkEntry, hskip], by simp [recordsEntry, hskip], by simp⟩
    · obtain ⟨out, hout, hmap, hspec⟩ :=
        walkForest_spec skipDir ignore prev linkOk children (joinRel rel name)
      exact ⟨out, by simp [walkEntry, hskip, hout], by simp [recordsEntry, hskip, hmap], hspec⟩
  | special name =>
    intro rel
    exact ⟨[], by simp [walkEntry], by simp [recordsEntry], by simp⟩
theorem walkForest_spec (skipDir : String) (ignore : List String)
    (prev : Option (List (String × FileMetadata))) (linkOk : String → Bool)
    (f : FsForest) : ∀ (rel : String),
    ∃ out, walkForest skipDir ignore prev linkOk (fun _ => true) rel f = .ok out ∧
      out.map Prod.fst = recordsForest skipDir ignore rel f ∧
      ∀ fa ∈ out, walkActionSpec prev linkOk fa := by
  cases f with
  | nil => exact fun rel => ⟨[], rfl, rfl, by simp⟩
  | cons e rest =>
    intro rel
    obtain ⟨a, ha, hamap, haspec⟩ := walkEntry_spec skipDir ignore prev linkOk e rel
    obtain ⟨b, hb, hbmap, hbspec⟩ := walkForest_spec skipDir ignore prev linkOk rest rel
    refine ⟨a ++ b, ?_, ?_, ?_⟩
    · simp [walkForest, ha, hb, bind, Except.bind]
    · simp [recordsForest, hamap, hbmap]
    · intro fa hfa
      rcases List.mem_append.mp hfa with h | h
      · exact haspec fa h
      · exact hbspec fa h
end

/-- C1: for every working tree, ignore set, dedup baseline, and hard-link
outcome oracle (copies succeeding), the snapshot walk completes successfully;
a hard link is attempted exactly for the regular files whose relative path has
a baseline record with identical size and modified value (the file ends up
linked when the link succeeds and falls back to a plain copy when it fails —
never an error); and every processed file contributes its FileRecord to the
manifest, in walk order, regardless of the link-vs-copy outcome. -/
theorem snapshot_walk_link_fallback (skipDir : String) (ignore : List String)
    (prev : Option (List (String × FileMetadata))) (linkOk : String → Bool)
    (rel : String) (f : FsForest) :
    ∃ out, walkForest skipDir ignore prev linkOk (fun _ => true) rel f = .ok out ∧
      out.map Prod.fst = recordsForest skipDir ignore rel f ∧
      ∀ fa ∈ out,
        ((fa.2 = FileAction.linked ∨ fa.2 = FileAction.copiedFallback) ↔
          baselineMatch prev fa.1.relative_path fa.1.file_size fa.1.modified = true) ∧
        (fa.2 = FileAction.linked ↔
          (baselineMatch prev fa.1.relative_path fa.1.file_size fa.1.modified = true ∧
           linkOk fa.1.relative_path = true)) :=
  walkForest_spec skipDir ignore prev linkOk f rel

/-- Witness for `snapshot_walk_link_fallback`: a tree with one unchanged file
(baseline match, link succeeds), one unchanged file whose link fails (falls
back to a copy), one changed file, and an ignored file; all three processed
files get records, in walk order. -/
theorem snapshot_walk_link_fallback_witness :
    ∃ out, walkForest ".snapsafe" ["skipme"]
      (some [("same", ⟨"same", 5, "t1"⟩), ("linkfail", ⟨"linkfail", 3, "t1"⟩),
             ("changed", ⟨"changed", 2, "t1"⟩)])
      (fun r => r = "same") (fun _ => true) ""
      (.cons (.file "same" 5 "t1")
        (.cons (.file "linkfail" 3 "t1")
          (.cons (.file "changed" 9 "t1")
            (.cons (.file "skipme" 1 "t1") .nil)))) = .ok out ∧
    out.map Prod.fst = [⟨"same", 5, "t1"⟩, ⟨"linkfail", 3, "t1"⟩, ⟨"changed", 9, "t1"⟩] := by
  obtain ⟨out, hout, hmap, hspec⟩ := snapshot_walk_link_fallback ".snapsafe" ["skipme"]
    (some [("same", ⟨"same", 5, "t1"⟩), ("linkfail", ⟨"linkfail", 3, "t1"⟩),
           ("changed", ⟨"changed", 2, "t1"⟩)])
    (fun r => r = "same") ""
    (.cons (.file "same" 5 "t1")
      (.cons (.file "linkfail" 3 "t1")
        (.cons (.file "changed" 9 "t1")
          (.cons (.file "skipme" 1 "t1") .nil))))
  refine ⟨out, hout, ?_⟩
  rw [hmap]
  decide

end Snapsafe
